import Mathlib

/-! hrecon: header reconnaissance probe

A shallow embedding of `hrecon.go` and the properties of its fetch-and-analyse
pipeline.

Conventions of the embedding.

* A Go `string` is a Lean `String` (valid UTF-8 text). `len` is the byte length
  and `strings.Contains` is containment of the code-point sequence, which on
  valid UTF-8 coincides with containment of the byte sequence.
* A Go `map[string]T` is the list of its entries, in the order in which `range`
  enumerates them; the keys of a map are pairwise distinct (`Values.WF`,
  `CountWF`). Every quantification over such lists is therefore also a
  quantification over the enumeration orders of the runtime.
* `uint64` and `int` are `Nat` and `Int` with explicit wrap-around
  (`wrapUint64`, `wrapInt`).
* Each `fmt.Printf` call site is a constructor of `Event` that carries the
  variables in scope at the call; `Event.render` is the text written. Standard
  output is the list of events in the order they were written.
* The standard library is not part of the repository: URL parsing, regular
  expression compilation, header-key canonicalisation and `sort.Slice` are the
  fields of `Lib`, and the result of `http.NewRequest` / `client.Do` for one
  request is an `Outcome` chosen by the environment.
* Code that runs under `mu.Lock()` is one atomic state update.
-/

namespace HRecon

/-! ## Constants -/

def Red : String := "\x1b[31m"
def Green : String := "\x1b[32m"
def Yellow : String := "\x1b[33m"
def Blue : String := "\x1b[34m"
def Reset : String := "\x1b[0m"

/-- The status code `http.StatusMovedPermanently`. -/
def StatusMovedPermanently : Int := 301
/-- The status code `http.StatusFound`. -/
def StatusFound : Int := 302

/-! ## Strings and machine integers -/

/-- Go's builtin `len` on a string: its number of bytes. -/
def len (s : String) : Nat := s.utf8ByteSize

/-- Whether `needle` occurs as a contiguous block of `hay`. -/
def containsList (hay needle : List Char) : Bool :=
  hay.tails.any (fun t => needle.isPrefixOf t)

/-- The function `strings.Contains(s, substr)`. -/
def stringsContains (s substr : String) : Bool :=
  containsList s.data substr.data

/-- Arithmetic of `uint64`: results are reduced modulo `2^64`. -/
def wrapUint64 (n : Nat) : Nat := n % 2 ^ 64

/-- Arithmetic of the 64-bit signed `int`: two's complement wrap-around. -/
def wrapInt (x : Int) : Int := (x + 2 ^ 63) % 2 ^ 64 - 2 ^ 63

/-! ## Data model -/

/-- The type `map[string][]string` of `http.Header` and `url.Values`. -/
abbrev Values := List (String × List String)

/-- The keys of a map are pairwise distinct. -/
def Values.WF (m : Values) : Prop := (m.map Prod.fst).Nodup

instance (m : Values) : Decidable (Values.WF m) := by
  unfold Values.WF; infer_instance

/-- The parsed target: `href` is `u.String()` and `Query` is `u.Query()`. -/
structure URL where
  href : String
  Query : Values
deriving DecidableEq

/-- The part of `http.Response` the program reads. -/
structure Response where
  StatusCode : Int
  Header : Values
deriving DecidableEq

/-- The element type of the slice sorted by `displayHeaderFrequency`. -/
structure headerFrequency where
  HeaderName : String
  Frequency : Int
deriving DecidableEq

/-- The package-level flag variables. -/
structure Config where
  reverse : Bool
  quiet : Bool
  header : String
  headervalue : String
  ExtractedHeaderValue : String
  headerPattern : String
  method : String
  feed : Int
  headerFrequency : Bool
  topRareHeaders : Int

/-- The standard-library functions the program calls. A compiled regular
expression is represented by its `MatchString` method. -/
structure Lib where
  ParseRequestURI : String → Option URL
  Compile : String → Option (String → Bool)
  CanonicalMIMEHeaderKey : String → String
  sortSlice : (headerFrequency → headerFrequency → Bool) →
    List headerFrequency → List headerFrequency

/-- What the environment answers to one request: `http.NewRequest` fails,
`client.Do` fails, or a response is received. -/
inductive Outcome where
  | newRequestErr
  | doErr
  | response (resp : Response)
deriving DecidableEq

/-- One value per `fmt.Printf` / `fmt.Println` call site. -/
inductive Event where
  /-- line 155: the URL of a hit, quiet mode unset -/
  | hitURL (href : String)
  /-- line 157: one response header of a hit, quiet mode unset -/
  | headerLine (k : String) (v : List String)
  /-- line 160: the URL of a hit, quiet mode set -/
  | quietURL (href : String)
  /-- line 190: a reflected parameter -/
  | alert (param value headerName headerValue : String)
  /-- lines 245 and 247: the counters -/
  | counters (quiet : Bool) (totalRequests totalErrors : Nat)
  /-- line 235: the heading of the frequency table -/
  | freqHeading
  /-- line 238: one row of the frequency table -/
  | freqLine (HeaderName : String) (Frequency : Int)
deriving DecidableEq

/-- The verb `%v` applied to a `[]string`. -/
def fmtSlice (v : List String) : String := "[" ++ " ".intercalate v ++ "]"

/-- The text each call site writes. -/
def Event.render : Event → String
  | .hitURL href => "\n\n" ++ Blue ++ href ++ Reset ++ "\n"
  | .headerLine k v => Green ++ k ++ ":" ++ Reset ++ " " ++ fmtSlice v ++ "\n"
  | .quietURL href => Blue ++ href ++ Reset ++ "\n"
  | .alert param value _ headerValue =>
      "\n" ++ Red ++ "Alert! Parameter " ++ param ++ " with value " ++ value ++
        " is reflected in header: " ++ headerValue ++ Reset ++ "\n"
  | .counters q r e =>
      "\r(Total requests: " ++ toString r ++ "  " ++ Red ++ "Errors: " ++ toString e ++
        Reset ++ ")" ++ (if q then "" else "\n\x1b[A")
  | .freqHeading =>
      "\n\n----------------------------\nHeader frequency statistics:" ++
        "\n----------------------------\n"
  | .freqLine n f => Green ++ n ++ ":" ++ Reset ++ " " ++ Blue ++ toString f ++ Reset ++ "\n"

/-- The shared variables `totalRequests`, `totalErrors`, `headerCount`, and
standard output. -/
structure State where
  totalRequests : Nat
  totalErrors : Nat
  headerCount : List (String × Int)
  stdout : List Event
deriving DecidableEq

/-- The state at program start: `headerCount = make(map[string]int)`. -/
def State.init : State := ⟨0, 0, [], []⟩

/-! ## Reflection detector -/

/-- The function `checkReflectedParameters`: the alerts it prints, in order. -/
def checkReflectedParameters (u : URL) (resp : Response) : List Event :=
  u.Query.flatMap fun (param, values) =>
    values.flatMap fun value =>
      if len value < 4 then []
      else
        resp.Header.flatMap fun (headerName, headerValues) =>
          headerValues.flatMap fun headerValue =>
            if stringsContains headerValue value then
              if (resp.StatusCode = StatusMovedPermanently ∨ resp.StatusCode = StatusFound) ∧
                  headerName = "Location" then []
              else [Event.alert param value headerName headerValue]
            else []

/-! ## Frequency table -/

/-- Reading `m[k]` in a `map[string]int`: zero when the key is absent. -/
def mapGet (m : List (String × Int)) (k : String) : Int := (m.lookup k).getD 0

/-- The assignment `m[k] = v`. -/
def mapSet : List (String × Int) → String → Int → List (String × Int)
  | [], k, v => [(k, v)]
  | (k', v') :: rest, k, v =>
      if k' = k then (k, v) :: rest else (k', v') :: mapSet rest k v

/-- The keys of the frequency table are pairwise distinct. -/
def CountWF (m : List (String × Int)) : Prop := (m.map Prod.fst).Nodup

instance (m : List (String × Int)) : Decidable (CountWF m) := by
  unfold CountWF; infer_instance

/-- The function `updateHeaderCount`: `headerCount[headerName]++` for every
key of the header map. -/
def updateHeaderCount (headers : Values) (headerCount : List (String × Int)) :
    List (String × Int) :=
  headers.foldl
    (fun hc kv => mapSet hc kv.1 (wrapInt (mapGet hc kv.1 + 1))) headerCount

/-! ## Fetch worker and analyser -/

/-- The function `containsEmpty`: whether one of the strings is empty. -/
def containsEmpty (ss : List String) : Bool := ss.any (fun s => decide (s = ""))

/-- The assignment `h[k] = vs` in a `map[string][]string`: the entry of an
existing key is replaced, a new key gets a new entry. -/
def valuesSet : Values → String → List String → Values
  | [], k, vs => [(k, vs)]
  | (k', vs') :: rest, k, vs =>
      if k' = k then (k, vs) :: rest else (k', vs') :: valuesSet rest k vs

/-- The method `http.Header.Set`: the values stored under the canonical form
of the key are replaced by the single given value. -/
def Header.Set (lib : Lib) (h : Values) (key value : String) : Values :=
  valuesSet h (lib.CanonicalMIMEHeaderKey key) [value]

/-- The header map of the request after lines 134 to 137 of `fetchURL`,
starting from the empty map of a new request: `User-Agent` is set, then the
custom header when neither its name nor its value is empty. -/
def requestHeader (lib : Lib) (cfg : Config) : Values :=
  let h := Header.Set lib [] "User-Agent"
    ("Mozilla/5.0 (X11; Linux x86_64) AppleWebKit/537.36 (KHTML, like Gecko) " ++
      "Chrome/96.0.4664.110 Safari/537.36")
  if !containsEmpty [cfg.header] && !containsEmpty [cfg.headervalue] then
    Header.Set lib h cfg.header cfg.headervalue
  else h

/-- The function `regexp.MatchString`: the match result and whether an error
is returned; a pattern that does not compile gives `(false, err)`. -/
def MatchString (lib : Lib) (pattern s : String) : Bool × Bool :=
  match lib.Compile pattern with
  | none => (false, true)
  | some re => (re s, false)

/-- The method `http.Header.Get`: the first value stored under the canonical
form of the key, the empty string when there is none. -/
def Header.Get (lib : Lib) (h : Values) (key : String) : String :=
  match h.lookup (lib.CanonicalMIMEHeaderKey key) with
  | some (v :: _) => v
  | _ => ""

/-- The local `match` of `fetchURL` (lines 149 to 151). -/
def matchOf (lib : Lib) (cfg : Config) (resp : Response) : Bool :=
  (MatchString lib cfg.headerPattern (Header.Get lib resp.Header cfg.ExtractedHeaderValue)).1

/-- The condition of the `if` on line 153. -/
def isHit (lib : Lib) (cfg : Config) (resp : Response) : Bool :=
  (!cfg.reverse && matchOf lib cfg resp) || (cfg.reverse && !matchOf lib cfg resp)

/-- What lines 153 to 163 of `fetchURL` print for a received response. -/
def analyse (lib : Lib) (cfg : Config) (u : URL) (resp : Response) : List Event :=
  if isHit lib cfg resp then
    (if !cfg.quiet then
      Event.hitURL u.href :: resp.Header.map (fun kv => Event.headerLine kv.1 kv.2)
    else
      [Event.quietURL u.href]) ++ checkReflectedParameters u resp
  else []

/-- The function `fetchURL`, given the outcome of the request. -/
def fetchURL (lib : Lib) (cfg : Config) (u : URL) (o : Outcome) (s : State) : State :=
  match o with
  | .newRequestErr => { s with totalErrors := wrapUint64 (s.totalErrors + 1) }
  | .doErr => { s with totalErrors := wrapUint64 (s.totalErrors + 1) }
  | .response resp =>
      let s1 := { s with stdout := s.stdout ++ analyse lib cfg u resp }
      let s2 := if cfg.headerFrequency then
          { s1 with headerCount := updateHeaderCount resp.Header s1.headerCount }
        else s1
      { s2 with totalRequests := wrapUint64 (s2.totalRequests + 1) }

/-- The alerts among a list of events. -/
def alertsOf (out : List Event) : List Event :=
  out.filter fun e => match e with
    | .alert .. => true
    | _ => false

/-- The calls of `fetchURL` for a sequence of targets whose responses were
received, one after the other. -/
def fetchAll (lib : Lib) (cfg : Config) (rs : List (URL × Response)) (s : State) : State :=
  rs.foldl (fun s ur => fetchURL lib cfg ur.1 (.response ur.2) s) s

/-- The function `printCounters`. -/
def printCounters (cfg : Config) (s : State) : State :=
  { s with stdout := s.stdout ++ [Event.counters cfg.quiet s.totalRequests s.totalErrors] }

/-! ## Frequency report -/

/-- The comparison handed to `sort.Slice` on line 231. -/
def less (a b : headerFrequency) : Bool := decide (a.Frequency < b.Frequency)

/-- The slice built on lines 225 to 229 from the entries of `headerCount`. -/
def headerFrequencies (headerCount : List (String × Int)) : List headerFrequency :=
  headerCount.map fun kv => { HeaderName := kv.1, Frequency := kv.2 }

/-- The loop of lines 237 to 239, entered with index `i` and the part of the
slice from index `i` on: the entries it prints. The test
`i < len(headerFrequencies)` is the test that this part is not empty. -/
def displayLoop (topRareHeaders : Int) : List headerFrequency → Nat → List headerFrequency
  | [], _ => []
  | e :: rest, i =>
      if (i : Int) < topRareHeaders then e :: displayLoop topRareHeaders rest (i + 1) else []

/-- The entries `displayHeaderFrequency` reports: the slice is built, sorted
and cut by the loop. -/
def rarest (lib : Lib) (topRareHeaders : Int) (headerCount : List (String × Int)) :
    List headerFrequency :=
  displayLoop topRareHeaders (lib.sortSlice less (headerFrequencies headerCount)) 0

/-- The function `displayHeaderFrequency`. -/
def displayHeaderFrequency (lib : Lib) (cfg : Config) (s : State) : State :=
  let rows := (rarest lib cfg.topRareHeaders s.headerCount).map
    fun e => Event.freqLine e.HeaderName e.Frequency
  { s with stdout := s.stdout ++ Event.freqHeading :: rows }

/-! ## Dispatcher -/

/-- The capacity of the channel `semaphore` (line 93). -/
def semaphoreCap : Nat := 20

/-- The body of the goroutine started on line 100, given the outcome of the
request it makes. -/
def worker (lib : Lib) (cfg : Config) (raw : String) (o : Outcome) (s : State) : State :=
  match lib.ParseRequestURI raw with
  | none => { s with totalErrors := wrapUint64 (s.totalErrors + 1) }
  | some u => fetchURL lib cfg u o s

/-- Lines 115 to 123 of `main`: the counters, then the frequency report when
it is enabled. -/
def finishMain (lib : Lib) (cfg : Config) (s : State) : State :=
  let s1 := printCounters cfg s
  if cfg.headerFrequency then displayHeaderFrequency lib cfg s1 else s1

/-- The program points of the dispatch loop of `main`. -/
inductive Loc where
  /-- line 95, before `sc.Scan()` -/
  | scan
  /-- line 99, before `semaphore <- true`, holding the line just read -/
  | send (raw : String)
  /-- line 100, before the `go` statement -/
  | spawn (raw : String)
  /-- line 111, before `<-semaphore` -/
  | recv
  /-- line 114, before `wg.Wait()` returns -/
  | wait
  /-- the end of `main` -/
  | exit
deriving DecidableEq

/-- The state of the whole program: the lines the scanner has not returned
yet, the program point of `main`, the number of values buffered in
`semaphore`, the counter of `wg`, the arguments of the goroutines that were
started and have not returned, and the shared variables. -/
structure Sys where
  input : List String
  loc : Loc
  semaphore : Nat
  wg : Nat
  running : List String
  shared : State
deriving DecidableEq

/-- The state in which `main` enters the loop on the given input lines. -/
def Sys.init (lines : List String) : Sys :=
  { input := lines, loc := .scan, semaphore := 0, wg := 0, running := [], shared := State.init }

/-- One scheduling decision: `main` takes its next step, or the goroutine at
position `i` of `running` runs to its end with outcome `o`. -/
inductive Action where
  | main
  | finish (i : Nat) (o : Outcome)
deriving DecidableEq

/-- One step of `main`; `none` when `main` is blocked or has ended. -/
def stepMain (lib : Lib) (cfg : Config) (s : Sys) : Option Sys :=
  match s.loc with
  | .scan =>
      match s.input with
      | raw :: rest => some { s with input := rest, loc := .send raw, wg := s.wg + 1 }
      | [] => some { s with loc := .wait }
  | .send raw =>
      if s.semaphore < semaphoreCap then
        some { s with loc := .spawn raw, semaphore := s.semaphore + 1 }
      else none
  | .spawn raw => some { s with loc := .recv, running := s.running ++ [raw] }
  | .recv =>
      if 0 < s.semaphore then some { s with loc := .scan, semaphore := s.semaphore - 1 }
      else none
  | .wait =>
      if s.wg = 0 then some { s with loc := .exit, shared := finishMain lib cfg s.shared }
      else none
  | .exit => none

/-- The goroutine at position `i` returns: its body has run and the deferred
`wg.Done()` is executed. -/
def stepFinish (lib : Lib) (cfg : Config) (i : Nat) (o : Outcome) (s : Sys) : Option Sys :=
  match s.running[i]? with
  | none => none
  | some raw =>
      if s.wg = 0 then none
      else some { s with
        running := s.running.eraseIdx i, wg := s.wg - 1,
        shared := worker lib cfg raw o s.shared }

/-- One step of the program under a scheduling decision. -/
def step (lib : Lib) (cfg : Config) : Action → Sys → Option Sys
  | .main, s => stepMain lib cfg s
  | .finish i o, s => stepFinish lib cfg i o s

/-- The run of the program under a schedule. -/
def exec (lib : Lib) (cfg : Config) : List Action → Sys → Option Sys
  | [], s => some s
  | a :: as, s =>
      match step lib cfg a s with
      | none => none
      | some s1 => exec lib cfg as s1

/-- The states the program can be in on the given input lines. -/
def Reachable (lib : Lib) (cfg : Config) (lines : List String) (s : Sys) : Prop :=
  ∃ sched, exec lib cfg sched (Sys.init lines) = some s

/-- The number of lines of the input that `url.ParseRequestURI` rejects. -/
def unparsable (lib : Lib) (lines : List String) : Nat :=
  (lines.filter fun raw => (lib.ParseRequestURI raw).isNone).length

/-- The line `main` has read and not yet handed to a goroutine. -/
def Loc.held : Loc → List String
  | .send raw => [raw]
  | .spawn raw => [raw]
  | _ => []

/-- The lines that no counter accounts for yet: those of the goroutines that
have not returned, the one `main` holds, and those not read yet. -/
def Sys.pending (s : Sys) : List String := s.running ++ (s.loc.held ++ s.input)

/-- The number of values `main` has sent to `semaphore` and not received
back, as a function of its program point. -/
def Loc.slots : Loc → Nat
  | .spawn _ => 1
  | .recv => 1
  | _ => 0

/-- The invariant of the dispatcher on the given input lines. -/
def Inv (lib : Lib) (lines : List String) (s : Sys) : Prop :=
  s.shared.totalRequests + s.shared.totalErrors + s.pending.length = lines.length ∧
  unparsable lib lines ≤ s.shared.totalErrors + unparsable lib s.pending ∧
  s.wg = s.running.length + s.loc.held.length ∧
  s.semaphore = s.loc.slots ∧
  (s.loc = .wait ∨ s.loc = .exit → s.input = []) ∧
  (s.loc = .exit → s.running = [])

/-- The schedule in which every goroutine returns, with the given outcome,
before `main` reads the next line; at the end `main` leaves the loop and
passes `wg.Wait()`. -/
def sequentialSchedule (os : List Outcome) : List Action :=
  (os.flatMap fun o => [.main, .main, .main, .main, .finish 0 o]) ++ [.main, .main]

/-- The schedule in which `main` dispatches `n` lines and no goroutine has
returned yet. -/
def dispatchOnly (n : Nat) : List Action :=
  (List.replicate n [Action.main, .main, .main, .main]).flatten

/-- The number of responses whose header map has the key `name`. -/
def responsesWith (name : String) (rs : List Response) : Nat :=
  (rs.filter fun r => decide (name ∈ r.Header.map Prod.fst)).length

/-! ## A small instance of the library

The instance below is used to evaluate the program on concrete inputs. Its
regular expressions are the literal fragment of the RE2 syntax (ordinary
characters, with an optional leading `^`), on which it agrees with the
`regexp` package; any pattern with another metacharacter is rejected, as the
package rejects an unbalanced parenthesis or bracket. Its URL parser accepts a
line that contains `://` and has no query, its canonical form of a header key
is the key, and its sort is insertion sort. -/

/-- The metacharacters of the regular-expression syntax. -/
def metaChars : List Char := "\\.+*?()|[]\x7b\x7d^$".data

/-- The compiler of the literal fragment. -/
def compileLiteral (pattern : String) : Option (String → Bool) :=
  let anchored := pattern.data.head? == some (Char.ofNat 94)
  let body := if anchored then pattern.data.tail else pattern.data
  if body.any (fun c => metaChars.contains c) then none
  else some fun s => if anchored then body.isPrefixOf s.data else containsList s.data body

/-- The instance of the library. -/
def refLib : Lib where
  ParseRequestURI raw :=
    if stringsContains raw "://" && !stringsContains raw "?" then some ⟨raw, []⟩ else none
  Compile := compileLiteral
  CanonicalMIMEHeaderKey key := key
  sortSlice lt l := l.insertionSort (fun a b => lt b a = false)

/-! ## Sample data -/

/-- A configuration that extracts `Server` and matches it against `^nginx`. -/
def sampleConfig (reverse quiet : Bool) : Config :=
  { reverse := reverse, quiet := quiet, header := "", headervalue := "",
    ExtractedHeaderValue := "Server", headerPattern := "^nginx", method := "GET",
    feed := 50, headerFrequency := true, topRareHeaders := 2 }

/-- The same configuration with a pattern that is not a regular expression. -/
def invalidPatternConfig : Config := { sampleConfig false false with headerPattern := "(" }

/-- A target with the query `q=abc123xyz`. -/
def sampleURL : URL := ⟨"http://t.test/?q=abc123xyz", [("q", ["abc123xyz"])]⟩

/-- A response of an nginx server that echoes the parameter in `X-Echo`. -/
def nginxResponse : Response :=
  ⟨200, [("Server", ["nginx/1.18.0"]), ("X-Echo", ["abc123xyz"])]⟩

/-- A response of another server that echoes the parameter in `X-Echo`. -/
def apacheResponse : Response :=
  ⟨200, [("Server", ["Apache"]), ("X-Echo", ["abc123xyz"])]⟩

/-- Three input lines, the second of which is not a URL. -/
def threeLines : List String := ["http://a.test/", "not a url", "http://b.test/"]

/-- Three responses with the header sets {A, B}, {A} and {A, C}; the header
`A` of the first one has two values. -/
def threeResponses : List (URL × Response) :=
  [(sampleURL, ⟨200, [("A", ["1", "2"]), ("B", ["1"])]⟩),
   (sampleURL, ⟨200, [("A", ["1"])]⟩),
   (sampleURL, ⟨404, [("A", ["1"]), ("C", ["1"])]⟩)]

end HRecon

/-! # Properties -/

namespace HRecon

/-! ## Strings -/

theorem containsList_iff (hay needle : List Char) :
    containsList hay needle = true ↔ ∃ a b, hay = a ++ needle ++ b := by
  unfold containsList
  rw [List.any_eq_true]
  constructor
  · rintro ⟨t, ht, hp⟩
    rw [List.mem_tails] at ht
    rw [List.isPrefixOf_iff_prefix] at hp
    obtain ⟨a, rfl⟩ := ht
    obtain ⟨b, rfl⟩ := hp
    exact ⟨a, b, by simp⟩
  · rintro ⟨a, b, rfl⟩
    refine ⟨needle ++ b, ?_, ?_⟩
    · rw [List.mem_tails]
      exact ⟨a, by simp⟩
    · rw [List.isPrefixOf_iff_prefix]
      exact ⟨b, rfl⟩

theorem stringsContains_iff (s substr : String) :
    stringsContains s substr = true ↔ ∃ a b, s.data = a ++ substr.data ++ b :=
  containsList_iff _ _

theorem stringsContains_mid (a x b : String) : stringsContains (a ++ x ++ b) x = true := by
  rw [stringsContains_iff]
  exact ⟨a.data, b.data, by simp [String.data_append]⟩

/-! ## Reflection detector -/

theorem mem_checkReflectedParameters (u : URL) (resp : Response) (e : Event) :
    e ∈ checkReflectedParameters u resp ↔
      ∃ param values value headerName headerValues headerValue,
        (param, values) ∈ u.Query ∧ value ∈ values ∧
        (headerName, headerValues) ∈ resp.Header ∧ headerValue ∈ headerValues ∧
        4 ≤ len value ∧ stringsContains headerValue value = true ∧
        ¬ ((resp.StatusCode = StatusMovedPermanently ∨ resp.StatusCode = StatusFound) ∧
            headerName = "Location") ∧
        e = Event.alert param value headerName headerValue := by
  unfold checkReflectedParameters
  simp only [List.mem_flatMap]
  constructor
  · rintro ⟨⟨param, values⟩, hq, value, hv, h⟩
    split at h
    · simp at h
    · rename_i hlen
      simp only [List.mem_flatMap] at h
      obtain ⟨⟨headerName, headerValues⟩, hh, headerValue, hhv, h⟩ := h
      split at h
      · rename_i hc
        split at h
        · simp at h
        · rename_i hloc
          simp only [List.mem_singleton] at h
          exact ⟨param, values, value, headerName, headerValues, headerValue, hq, hv, hh, hhv,
            by omega, hc, hloc, h⟩
      · simp at h
  · rintro ⟨param, values, value, headerName, headerValues, headerValue, hq, hv, hh, hhv,
      hlen, hc, hloc, rfl⟩
    refine ⟨(param, values), hq, value, hv, ?_⟩
    rw [if_neg (by omega)]
    simp only [List.mem_flatMap]
    refine ⟨(headerName, headerValues), hh, headerValue, hhv, ?_⟩
    simp only
    rw [if_pos hc, if_neg hloc]
    simp

/-- C2: `checkReflectedParameters` prints an alert for a combination of a
query parameter, one of its values, a header name and one of its values if and
only if the value is at least 4 bytes long, the header value contains the
value as a contiguous block, and it is not the case that the header is named
`Location` while the status is 301 or 302. The three examples of the
specification are evaluated: `X-Echo: abc123xyz` with `q=abc123xyz` gives one
alert for `q`, `q=abc` gives none, and a 302 response whose `Location` header
contains the value gives none. -/
theorem checkReflectedParameters_alert_iff :
    (∀ (u : URL) (resp : Response) (param value headerName headerValue : String),
      Event.alert param value headerName headerValue ∈ checkReflectedParameters u resp ↔
        ((∃ values, (param, values) ∈ u.Query ∧ value ∈ values) ∧
          (∃ headerValues, (headerName, headerValues) ∈ resp.Header ∧
            headerValue ∈ headerValues)) ∧
        4 ≤ len value ∧
        (∃ a b, headerValue.data = a ++ value.data ++ b) ∧
        ¬ (headerName = "Location" ∧ (resp.StatusCode = 301 ∨ resp.StatusCode = 302))) ∧
    checkReflectedParameters ⟨"http://t.test/?q=abc123xyz", [("q", ["abc123xyz"])]⟩
        ⟨200, [("X-Echo", ["abc123xyz"])]⟩
      = [Event.alert "q" "abc123xyz" "X-Echo" "abc123xyz"] ∧
    checkReflectedParameters ⟨"http://t.test/?q=abc", [("q", ["abc"])]⟩
        ⟨200, [("X-Echo", ["abc"])]⟩ = [] ∧
    checkReflectedParameters ⟨"http://t.test/?q=abc123xyz", [("q", ["abc123xyz"])]⟩
        ⟨302, [("Location", ["http://t.test/next?from=abc123xyz"])]⟩ = [] := by
  refine ⟨?_, by decide, by decide, by decide⟩
  intro u resp param value headerName headerValue
  rw [mem_checkReflectedParameters]
  simp only [StatusMovedPermanently, StatusFound, ← stringsContains_iff]
  constructor
  · rintro ⟨p, vs, v, hn, hvs, hv, hq, hv1, hh, hhv, hlen, hc, hloc, he⟩
    injection he with h1 h2 h3 h4
    subst h1 h2 h3 h4
    exact ⟨⟨⟨vs, hq, hv1⟩, ⟨hvs, hh, hhv⟩⟩, hlen, hc, fun h => hloc ⟨h.2, h.1⟩⟩
  · rintro ⟨⟨⟨vs, hq, hv1⟩, ⟨hvs, hh, hhv⟩⟩, hlen, hc, hloc⟩
    exact ⟨param, vs, value, headerName, hvs, headerValue, hq, hv1, hh, hhv, hlen, hc,
      fun h => hloc ⟨h.2, h.1⟩, rfl⟩

theorem alert_render_contains (param value headerName headerValue : String) :
    stringsContains (Event.alert param value headerName headerValue).render param = true ∧
    stringsContains (Event.alert param value headerName headerValue).render value = true ∧
    stringsContains (Event.alert param value headerName headerValue).render headerValue
      = true := by
  have h1 : (Event.alert param value headerName headerValue).render =
      ("\n" ++ Red ++ "Alert! Parameter ") ++ param ++
        (" with value " ++ value ++ " is reflected in header: " ++ headerValue ++ Reset ++
          "\n") := by
    simp only [Event.render, String.append_assoc]
  have h2 : (Event.alert param value headerName headerValue).render =
      ("\n" ++ Red ++ "Alert! Parameter " ++ param ++ " with value ") ++ value ++
        (" is reflected in header: " ++ headerValue ++ Reset ++ "\n") := by
    simp only [Event.render, String.append_assoc]
  have h3 : (Event.alert param value headerName headerValue).render =
      ("\n" ++ Red ++ "Alert! Parameter " ++ param ++ " with value " ++ value ++
        " is reflected in header: ") ++ headerValue ++ (Reset ++ "\n") := by
    simp only [Event.render, String.append_assoc]
  refine ⟨?_, ?_, ?_⟩
  · rw [h1]; exact stringsContains_mid _ _ _
  · rw [h2]; exact stringsContains_mid _ _ _
  · rw [h3]; exact stringsContains_mid _ _ _

/-- C10 (what the code does): the `Printf` of line 190 is given `headerValue`
where the claim expects the name of the header. For the response header
`X-Echo: abc123xyz` and the query `q=abc123xyz` an alert is printed whose text
is `Alert! Parameter q with value abc123xyz is reflected in header: abc123xyz`
and does not contain the header name `X-Echo`; for every alert the text is
the same whatever the name of the header is. -/
theorem alert_text_lacks_header_name :
    Event.alert "q" "abc123xyz" "X-Echo" "abc123xyz" ∈
        checkReflectedParameters sampleURL ⟨200, [("X-Echo", ["abc123xyz"])]⟩ ∧
    (Event.alert "q" "abc123xyz" "X-Echo" "abc123xyz").render =
      "\n\x1b[31mAlert! Parameter q with value abc123xyz is reflected in header: " ++
        "abc123xyz\x1b[0m\n" ∧
    stringsContains (Event.alert "q" "abc123xyz" "X-Echo" "abc123xyz").render "X-Echo"
      = false ∧
    ∀ param value headerName headerName1 headerValue,
      (Event.alert param value headerName headerValue).render =
        (Event.alert param value headerName1 headerValue).render :=
  ⟨by decide, by decide, by decide, fun _ _ _ _ _ => rfl⟩

/-! ## Analyser -/

theorem alertsOf_append (a b : List Event) : alertsOf (a ++ b) = alertsOf a ++ alertsOf b := by
  simp [alertsOf]

theorem alertsOf_checkReflectedParameters (u : URL) (resp : Response) :
    alertsOf (checkReflectedParameters u resp) = checkReflectedParameters u resp := by
  unfold alertsOf
  rw [List.filter_eq_self]
  intro e he
  rw [mem_checkReflectedParameters] at he
  obtain ⟨p, vs, v, hn, hvs, hv, _, _, _, _, _, _, _, rfl⟩ := he
  rfl

theorem alertsOf_headerLines (h : Values) :
    alertsOf (h.map fun kv => Event.headerLine kv.1 kv.2) = [] := by
  unfold alertsOf
  rw [List.filter_eq_nil_iff]
  intro e he
  rw [List.mem_map] at he
  obtain ⟨kv, _, rfl⟩ := he
  simp

theorem fetchURL_stdout (lib : Lib) (cfg : Config) (u : URL) (resp : Response) (s : State) :
    (fetchURL lib cfg u (.response resp) s).stdout = s.stdout ++ analyse lib cfg u resp := by
  unfold fetchURL
  by_cases hf : cfg.headerFrequency = true <;> simp [hf]

theorem fetchURL_counters (lib : Lib) (cfg : Config) (u : URL) (resp : Response) (s : State) :
    (fetchURL lib cfg u (.response resp) s).totalRequests = wrapUint64 (s.totalRequests + 1) ∧
    (fetchURL lib cfg u (.response resp) s).totalErrors = s.totalErrors := by
  unfold fetchURL
  by_cases hf : cfg.headerFrequency = true <;> simp [hf]

/-- C3 (as stated, refuted): with the pattern `^nginx` on the header `Server`
and `reverse` unset, the response of a server that is not nginx is a miss;
`fetchURL` prints no alert for it, although `checkReflectedParameters` on the
same URL and response prints one. -/
theorem fetchURL_miss_skips_reflection_check :
    isHit refLib (sampleConfig false false) apacheResponse = false ∧
    alertsOf (fetchURL refLib (sampleConfig false false) sampleURL
      (.response apacheResponse) State.init).stdout = [] ∧
    checkReflectedParameters sampleURL apacheResponse =
      [Event.alert "q" "abc123xyz" "X-Echo" "abc123xyz"] := by
  decide

/-- C3 (amended): for every configuration, URL and received response,
`fetchURL` appends to standard output a block of events whose alerts are
exactly those of one call of `checkReflectedParameters` on that URL and
response when the response is a hit, and in which there is no alert when the
response is a miss. -/
theorem fetchURL_alerts_iff_hit (lib : Lib) (cfg : Config) (u : URL) (resp : Response)
    (s : State) :
    ∃ out, (fetchURL lib cfg u (.response resp) s).stdout = s.stdout ++ out ∧
      alertsOf out =
        if isHit lib cfg resp = true then checkReflectedParameters u resp else [] := by
  refine ⟨analyse lib cfg u resp, fetchURL_stdout lib cfg u resp s, ?_⟩
  unfold analyse
  by_cases hh : isHit lib cfg resp = true
  · rw [if_pos hh, if_pos hh, alertsOf_append, alertsOf_checkReflectedParameters]
    by_cases hq : cfg.quiet = true
    · simp [hq, alertsOf]
    · have h0 := alertsOf_headerLines resp.Header
      simp only [alertsOf] at h0
      simp [hq, alertsOf, h0]
  · rw [if_neg hh, if_neg hh]
    rfl

/-- C4: the hit condition of `fetchURL` is
`(!reverse && m) || (reverse && !m)`, where `m` is the result of matching the
configured pattern against the first value of the configured header (the
empty string when the header is absent); under `reverse = true` it is the
negation of what it is under `reverse = false`. With the pattern `^nginx` and
the extracted value `nginx/1.18.0` the response is a hit with `reverse` unset
and a miss with `reverse` set. -/
theorem isHit_spec (lib : Lib) (cfg : Config) (resp : Response) :
    isHit lib cfg resp =
      ((!cfg.reverse && matchOf lib cfg resp) || (cfg.reverse && !matchOf lib cfg resp)) ∧
    matchOf lib cfg resp =
      (match lib.Compile cfg.headerPattern with
        | none => false
        | some re => re (Header.Get lib resp.Header cfg.ExtractedHeaderValue)) ∧
    (resp.Header.lookup (lib.CanonicalMIMEHeaderKey cfg.ExtractedHeaderValue) = none →
      Header.Get lib resp.Header cfg.ExtractedHeaderValue = "") ∧
    (∀ v vs, resp.Header.lookup (lib.CanonicalMIMEHeaderKey cfg.ExtractedHeaderValue)
        = some (v :: vs) → Header.Get lib resp.Header cfg.ExtractedHeaderValue = v) ∧
    isHit lib { cfg with reverse := true } resp =
      !isHit lib { cfg with reverse := false } resp ∧
    Header.Get refLib nginxResponse.Header "Server" = "nginx/1.18.0" ∧
    isHit refLib (sampleConfig false false) nginxResponse = true ∧
    isHit refLib (sampleConfig true false) nginxResponse = false := by
  refine ⟨rfl, ?_, ?_, ?_, ?_, by decide, by decide, by decide⟩
  · unfold matchOf MatchString
    cases lib.Compile cfg.headerPattern <;> rfl
  · intro h
    simp [Header.Get, h]
  · intro v vs h
    simp [Header.Get, h]
  · simp [isHit, matchOf]

/-- C5 (as stated, refuted): for a miss `fetchURL` prints nothing, hence not
the URL. -/
theorem fetchURL_miss_prints_nothing :
    isHit refLib (sampleConfig false false) apacheResponse = false ∧
    (fetchURL refLib (sampleConfig false false) sampleURL
      (.response apacheResponse) State.init).stdout = [] := by
  decide

/-- C5 (amended): on a hit with quiet mode unset `fetchURL` prints the URL
followed by one line for every entry of the response header map, with its
name and values (and then the alerts); on a hit with quiet mode set it prints
only the URL (and then the alerts); on a miss it prints nothing. -/
theorem fetchURL_prints (lib : Lib) (cfg : Config) (u : URL) (resp : Response) (s : State) :
    (fetchURL lib cfg u (.response resp) s).stdout = s.stdout ++
      (if isHit lib cfg resp = true then
        (if cfg.quiet = true then [Event.quietURL u.href]
          else Event.hitURL u.href :: resp.Header.map fun kv => Event.headerLine kv.1 kv.2)
          ++ checkReflectedParameters u resp
      else []) ∧
    (Event.hitURL u.href).render = "\n\n" ++ Blue ++ u.href ++ Reset ++ "\n" ∧
    (Event.quietURL u.href).render = Blue ++ u.href ++ Reset ++ "\n" ∧
    ∀ k v, (Event.headerLine k v).render =
      Green ++ k ++ ":" ++ Reset ++ " " ++ ("[" ++ " ".intercalate v ++ "]") ++ "\n" := by
  refine ⟨?_, rfl, rfl, fun _ _ => rfl⟩
  · rw [fetchURL_stdout]
    unfold analyse
    by_cases hh : isHit lib cfg resp = true
    · by_cases hq : cfg.quiet = true <;> simp [hh, hq]
    · simp [hh]

/-- C9: when the configured pattern does not compile, `regexp.MatchString`
returns `false` together with an error that `fetchURL` discards; the local
`match` is `false`, so the response is a miss when `reverse` is unset and a
hit when it is set, and `fetchURL` goes on to increment `totalRequests` and
leaves `totalErrors` unchanged. -/
theorem invalid_pattern_is_no_match (lib : Lib) (cfg : Config) (u : URL) (resp : Response)
    (s : State) (h : lib.Compile cfg.headerPattern = none) :
    MatchString lib cfg.headerPattern (Header.Get lib resp.Header cfg.ExtractedHeaderValue)
      = (false, true) ∧
    matchOf lib cfg resp = false ∧
    isHit lib cfg resp = cfg.reverse ∧
    (fetchURL lib cfg u (.response resp) s).totalRequests = wrapUint64 (s.totalRequests + 1) ∧
    (fetchURL lib cfg u (.response resp) s).totalErrors = s.totalErrors := by
  have hm : MatchString lib cfg.headerPattern
      (Header.Get lib resp.Header cfg.ExtractedHeaderValue) = (false, true) := by
    simp [MatchString, h]
  have hm2 : matchOf lib cfg resp = false := by
    simp [matchOf, hm]
  refine ⟨hm, hm2, ?_, fetchURL_counters lib cfg u resp s⟩
  simp [isHit, hm2]

/-- The pattern `(` does not compile; the nginx response is then a miss and
is counted as a completed request. -/
theorem invalid_pattern_is_no_match_witness :
    refLib.Compile invalidPatternConfig.headerPattern = none ∧
    matchOf refLib invalidPatternConfig nginxResponse = false ∧
    isHit refLib invalidPatternConfig nginxResponse = false ∧
    (fetchURL refLib invalidPatternConfig sampleURL
      (.response nginxResponse) State.init).totalRequests = 1 :=
  have h := invalid_pattern_is_no_match refLib invalidPatternConfig sampleURL nginxResponse
    State.init (Option.isNone_iff_eq_none.mp (by decide))
  ⟨Option.isNone_iff_eq_none.mp (by decide), h.2.1, h.2.2.1, h.2.2.2.1⟩

/-! ## Frequency table -/

theorem wrapInt_succ (c : Int) (h0 : 0 ≤ c) (h1 : c + 1 < 2 ^ 63) : wrapInt (c + 1) = c + 1 := by
  unfold wrapInt
  omega

theorem wrapUint64_of_lt (n : Nat) (h : n < 2 ^ 64) : wrapUint64 n = n := by
  unfold wrapUint64
  omega

theorem lookup_cons_eq {β : Type} (k k0 : String) (v0 : β) (rest : List (String × β)) :
    List.lookup k ((k0, v0) :: rest) = if k = k0 then some v0 else List.lookup k rest := by
  by_cases h : k = k0
  · subst h; simp [List.lookup]
  · have h1 : (k == k0) = false := by simpa using h
    simp [List.lookup, h1, h]

theorem lookup_mapSet (m : List (String × Int)) (k k' : String) (v : Int) :
    (mapSet m k v).lookup k' = if k' = k then some v else m.lookup k' := by
  induction m with
  | nil => simp [mapSet, lookup_cons_eq]
  | cons kv rest ih =>
    obtain ⟨k0, v0⟩ := kv
    by_cases h0 : k0 = k
    · subst h0
      simp only [mapSet, if_true, lookup_cons_eq]
      split <;> rfl
    · simp only [mapSet, if_neg h0, lookup_cons_eq, ih]
      by_cases h : k' = k
      · subst h
        have h1 : ¬ k' = k0 := fun e => h0 e.symm
        simp [h1]
      · simp [h]

theorem keys_mapSet (m : List (String × Int)) (k : String) (v : Int) :
    (mapSet m k v).map Prod.fst =
      if k ∈ m.map Prod.fst then m.map Prod.fst else m.map Prod.fst ++ [k] := by
  induction m with
  | nil => simp [mapSet]
  | cons kv rest ih =>
    obtain ⟨k0, v0⟩ := kv
    by_cases h0 : k0 = k
    · subst h0
      simp [mapSet]
    · have h1 : ¬ k = k0 := fun e => h0 e.symm
      simp only [mapSet, if_neg h0, List.map_cons, ih, List.mem_cons, h1, false_or]
      split <;> simp

theorem lookup_eq_none_iff_keys {β : Type} (m : List (String × β)) (k : String) :
    m.lookup k = none ↔ k ∉ m.map Prod.fst := by
  induction m with
  | nil => simp
  | cons kv rest ih =>
    obtain ⟨k0, v0⟩ := kv
    rw [lookup_cons_eq]
    by_cases h : k = k0
    · simp [h]
    · simp [h, ih]

theorem mapGet_mapSet (m : List (String × Int)) (k k' : String) (v : Int) :
    mapGet (mapSet m k v) k' = if k' = k then v else mapGet m k' := by
  unfold mapGet
  rw [lookup_mapSet]
  split <;> rfl

theorem countWF_mapSet (m : List (String × Int)) (k : String) (v : Int) (h : CountWF m) :
    CountWF (mapSet m k v) := by
  unfold CountWF at *
  rw [keys_mapSet]
  split
  · exact h
  · rename_i hk
    rw [List.nodup_append]
    refine ⟨h, List.nodup_singleton k, ?_⟩
    intro a ha hb
    rw [List.mem_singleton] at hb
    subst hb
    exact hk ha

theorem mem_keys_mapSet (m : List (String × Int)) (k k' : String) (v : Int) :
    k' ∈ (mapSet m k v).map Prod.fst ↔ k' = k ∨ k' ∈ m.map Prod.fst := by
  rw [keys_mapSet]
  split
  · rename_i hk
    constructor
    · exact Or.inr
    · rintro (rfl | h)
      · exact hk
      · exact h
  · rw [List.mem_append, List.mem_singleton]
    exact or_comm

theorem mapGet_updateHeaderCount (headers : Values) (hwf : headers.WF)
    (hc : List (String × Int)) (name : String) :
    mapGet (updateHeaderCount headers hc) name =
      if name ∈ headers.map Prod.fst then wrapInt (mapGet hc name + 1) else mapGet hc name := by
  induction headers generalizing hc with
  | nil => simp [updateHeaderCount]
  | cons kv rest ih =>
    obtain ⟨k, v⟩ := kv
    unfold Values.WF at hwf
    rw [List.map_cons, List.nodup_cons] at hwf
    have hstep : updateHeaderCount ((k, v) :: rest) hc =
        updateHeaderCount rest (mapSet hc k (wrapInt (mapGet hc k + 1))) := rfl
    rw [hstep, ih hwf.2]
    by_cases hn : name = k
    · subst hn
      simp [hwf.1, mapGet_mapSet]
    · by_cases hm : name ∈ rest.map Prod.fst <;> simp [hn, hm, mapGet_mapSet]

theorem mem_keys_updateHeaderCount (headers : Values) (hc : List (String × Int))
    (name : String) :
    name ∈ (updateHeaderCount headers hc).map Prod.fst ↔
      name ∈ headers.map Prod.fst ∨ name ∈ hc.map Prod.fst := by
  induction headers generalizing hc with
  | nil => simp [updateHeaderCount]
  | cons kv rest ih =>
    have hstep : updateHeaderCount (kv :: rest) hc =
        updateHeaderCount rest (mapSet hc kv.1 (wrapInt (mapGet hc kv.1 + 1))) := rfl
    rw [hstep, ih, mem_keys_mapSet, List.map_cons, List.mem_cons]
    tauto

theorem countWF_updateHeaderCount (headers : Values) (hc : List (String × Int))
    (h : CountWF hc) : CountWF (updateHeaderCount headers hc) := by
  induction headers generalizing hc with
  | nil => exact h
  | cons kv rest ih => exact ih _ (countWF_mapSet hc _ _ h)

theorem fetchURL_headerCount (lib : Lib) (cfg : Config) (hf : cfg.headerFrequency = true)
    (u : URL) (resp : Response) (s : State) :
    (fetchURL lib cfg u (.response resp) s).headerCount =
      updateHeaderCount resp.Header s.headerCount := by
  unfold fetchURL
  simp [hf]

theorem responsesWith_cons (name : String) (r : Response) (rs : List Response) :
    responsesWith name (r :: rs) =
      (if name ∈ r.Header.map Prod.fst then 1 else 0) + responsesWith name rs := by
  unfold responsesWith
  by_cases h : name ∈ r.Header.map Prod.fst
  · rw [List.filter_cons_of_pos (by simpa using h), if_pos h, List.length_cons]
    omega
  · rw [List.filter_cons_of_neg (by simpa using h), if_neg h]
    omega

theorem responsesWith_le (name : String) (rs : List Response) :
    responsesWith name rs ≤ rs.length :=
  List.length_filter_le _ _

theorem mapGet_fetchAll (lib : Lib) (cfg : Config) (hf : cfg.headerFrequency = true)
    (name : String) (rs : List (URL × Response)) (hwf : ∀ ur ∈ rs, ur.2.Header.WF)
    (s : State) (c0 : Nat) (h0 : mapGet s.headerCount name = c0)
    (hb : c0 + rs.length < 2 ^ 63) :
    mapGet (fetchAll lib cfg rs s).headerCount name =
      ((c0 + responsesWith name (rs.map Prod.snd) : Nat) : Int) := by
  induction rs generalizing s c0 with
  | nil => simpa [fetchAll, responsesWith] using h0
  | cons ur rest ih =>
    have hstep : fetchAll lib cfg (ur :: rest) s =
        fetchAll lib cfg rest (fetchURL lib cfg ur.1 (.response ur.2) s) := rfl
    have hwf1 : ur.2.Header.WF := hwf ur (List.mem_cons_self _ _)
    have hwf2 : ∀ x ∈ rest, x.2.Header.WF := fun x hx => hwf x (List.mem_cons_of_mem _ hx)
    rw [List.length_cons] at hb
    rw [hstep, List.map_cons, responsesWith_cons]
    by_cases hm : name ∈ ur.2.Header.map Prod.fst
    · have h1 : mapGet (fetchURL lib cfg ur.1 (.response ur.2) s).headerCount name
          = ((c0 + 1 : Nat) : Int) := by
        have hlt : (c0 : Int) + 1 < 2 ^ 63 := by omega
        rw [fetchURL_headerCount lib cfg hf, mapGet_updateHeaderCount _ hwf1, if_pos hm, h0,
          wrapInt_succ _ (by omega) hlt]
        push_cast
        rfl
      rw [ih hwf2 _ (c0 + 1) h1 (by omega), if_pos hm]
      congr 1
      omega
    · have h1 : mapGet (fetchURL lib cfg ur.1 (.response ur.2) s).headerCount name
          = ((c0 : Nat) : Int) := by
        rw [fetchURL_headerCount lib cfg hf, mapGet_updateHeaderCount _ hwf1, if_neg hm, h0]
      rw [ih hwf2 _ c0 h1 (by omega), if_neg hm]
      congr 1
      omega

theorem mem_keys_fetchAll (lib : Lib) (cfg : Config) (hf : cfg.headerFrequency = true)
    (name : String) (rs : List (URL × Response)) (s : State) :
    name ∈ (fetchAll lib cfg rs s).headerCount.map Prod.fst ↔
      (∃ ur ∈ rs, name ∈ ur.2.Header.map Prod.fst) ∨ name ∈ s.headerCount.map Prod.fst := by
  induction rs generalizing s with
  | nil => simp [fetchAll]
  | cons ur rest ih =>
    have hstep : fetchAll lib cfg (ur :: rest) s =
        fetchAll lib cfg rest (fetchURL lib cfg ur.1 (.response ur.2) s) := rfl
    rw [hstep, ih, fetchURL_headerCount lib cfg hf, mem_keys_updateHeaderCount]
    simp only [List.mem_cons, exists_eq_or_imp]
    have hprop : ∀ P Q R : Prop, (P ∨ Q ∨ R) ↔ ((Q ∨ P) ∨ R) := by
      intro P Q R
      tauto
    exact hprop _ _ _

theorem countWF_fetchAll (lib : Lib) (cfg : Config) (hf : cfg.headerFrequency = true)
    (rs : List (URL × Response)) (s : State) (h : CountWF s.headerCount) :
    CountWF (fetchAll lib cfg rs s).headerCount := by
  induction rs generalizing s with
  | nil => exact h
  | cons ur rest ih =>
    have hstep : fetchAll lib cfg (ur :: rest) s =
        fetchAll lib cfg rest (fetchURL lib cfg ur.1 (.response ur.2) s) := rfl
    rw [hstep]
    apply ih
    rw [fetchURL_headerCount lib cfg hf]
    exact countWF_updateHeaderCount _ _ h

theorem responsesWith_pos_iff (name : String) (rs : List Response) :
    0 < responsesWith name rs ↔ ∃ r ∈ rs, name ∈ r.Header.map Prod.fst := by
  unfold responsesWith
  rw [List.length_pos_iff_exists_mem]
  simp only [List.mem_filter, decide_eq_true_eq]

/-- C6: with frequency tracking enabled, after `fetchURL` has processed any
sequence of received responses (hits and misses alike, fewer than `2^63` of
them so that the `int` counters do not wrap), `headerCount` is a map whose
entry for a header name is the number of responses whose header map has that
name, and which has no entry for a name that occurs in no response. -/
theorem headerCount_counts_responses (lib : Lib) (cfg : Config)
    (hf : cfg.headerFrequency = true) (rs : List (URL × Response))
    (hwf : ∀ ur ∈ rs, ur.2.Header.WF) (hlen : rs.length < 2 ^ 63) :
    CountWF (fetchAll lib cfg rs State.init).headerCount ∧
    ∀ name, (fetchAll lib cfg rs State.init).headerCount.lookup name =
      if responsesWith name (rs.map Prod.snd) = 0 then none
      else some (responsesWith name (rs.map Prod.snd) : Int) := by
  refine ⟨countWF_fetchAll lib cfg hf rs _ List.nodup_nil, ?_⟩
  intro name
  have hget := mapGet_fetchAll lib cfg hf name rs hwf State.init 0 rfl (by omega)
  have hkeys := mem_keys_fetchAll lib cfg hf name rs State.init
  have hpos := responsesWith_pos_iff name (rs.map Prod.snd)
  by_cases hz : responsesWith name (rs.map Prod.snd) = 0
  · rw [if_pos hz, lookup_eq_none_iff_keys, hkeys]
    rintro (⟨ur, hur, hn⟩ | hn)
    · have : 0 < responsesWith name (rs.map Prod.snd) :=
        hpos.mpr ⟨ur.2, List.mem_map_of_mem _ hur, hn⟩
      omega
    · simp [State.init] at hn
  · rw [if_neg hz]
    cases hl : (fetchAll lib cfg rs State.init).headerCount.lookup name with
    | none =>
      rw [lookup_eq_none_iff_keys, hkeys] at hl
      obtain ⟨r, hr, hn⟩ := hpos.mp (by omega)
      rw [List.mem_map] at hr
      obtain ⟨ur, hur, rfl⟩ := hr
      exact absurd (Or.inl ⟨ur, hur, hn⟩) hl
    | some c =>
      unfold mapGet at hget
      rw [hl] at hget
      simp only [Option.getD_some, Nat.zero_add] at hget
      rw [hget]

/-- Three responses with the header sets {A, B}, {A}, {A, C} give the counts
A = 3, B = 1, C = 1, although `A` has two values in the first response. -/
theorem headerCount_counts_responses_witness :
    (fetchAll refLib (sampleConfig false true) threeResponses State.init).headerCount
      = [("A", 3), ("B", 1), ("C", 1)] ∧
    CountWF (fetchAll refLib (sampleConfig false true) threeResponses State.init).headerCount ∧
    (fetchAll refLib (sampleConfig false true) threeResponses State.init).headerCount.lookup "A"
      = some 3 ∧
    (fetchAll refLib (sampleConfig false true) threeResponses State.init).headerCount.lookup "D"
      = none :=
  have h := headerCount_counts_responses refLib (sampleConfig false true) rfl threeResponses
    (by decide) (by decide)
  ⟨by decide, h.1, (h.2 "A").trans (by decide), (h.2 "D").trans (by decide)⟩

/-! ## Frequency report -/

theorem displayLoop_eq_take (K : Int) (l : List headerFrequency) (i : Nat) :
    displayLoop K l i = l.take (K - i).toNat := by
  induction l generalizing i with
  | nil => simp [displayLoop]
  | cons e rest ih =>
    unfold displayLoop
    by_cases h : (i : Int) < K
    · rw [if_pos h, ih]
      have hn : (K - (i : Int)).toNat = (K - ((i + 1 : Nat) : Int)).toNat + 1 := by
        push_cast
        omega
      rw [hn, List.take_succ_cons]
    · rw [if_neg h]
      have hn : (K - (i : Int)).toNat = 0 := by omega
      rw [hn, List.take_zero]

theorem rarest_eq_take (lib : Lib) (K : Int) (headerCount : List (String × Int)) :
    rarest lib K headerCount =
      (lib.sortSlice less (headerFrequencies headerCount)).take K.toNat := by
  unfold rarest
  rw [displayLoop_eq_take]
  simp

theorem names_headerFrequencies (headerCount : List (String × Int)) :
    (headerFrequencies headerCount).map (fun e => e.HeaderName) = headerCount.map Prod.fst := by
  simp [headerFrequencies, Function.comp_def]

theorem mem_headerFrequencies (headerCount : List (String × Int)) (e : headerFrequency) :
    e ∈ headerFrequencies headerCount ↔ (e.HeaderName, e.Frequency) ∈ headerCount := by
  unfold headerFrequencies
  rw [List.mem_map]
  constructor
  · rintro ⟨kv, hkv, rfl⟩
    exact hkv
  · intro h
    exact ⟨(e.HeaderName, e.Frequency), h, rfl⟩

theorem less_eq_false_iff (a b : headerFrequency) :
    less b a = false ↔ a.Frequency ≤ b.Frequency := by
  simp [less]

theorem refLib_sortSlice (l : List headerFrequency) :
    (refLib.sortSlice less l).Perm l ∧
      (refLib.sortSlice less l).Pairwise (fun a b => less b a = false) := by
  have htotal : IsTotal headerFrequency (fun a b => less b a = false) :=
    ⟨fun a b => by
      simp only [less_eq_false_iff]
      exact le_total _ _⟩
  have htrans : IsTrans headerFrequency (fun a b => less b a = false) :=
    ⟨fun a b c hab hbc => by
      simp only [less_eq_false_iff] at *
      exact le_trans hab hbc⟩
  exact ⟨List.perm_insertionSort _ l, List.sorted_insertionSort _ l⟩

/-- C7: for every frequency table (a map, so with pairwise distinct names)
and every `K ≥ 0`, given that `sort.Slice` returns a permutation of the slice
in which no element is `less` than an earlier one, `displayHeaderFrequency`
prints the heading and then one row for each of exactly `min(K, n)` entries;
the entries are pairwise distinct entries of the table, with pairwise
distinct names, listed in non-decreasing order of count, and the count of
every reported entry is at most the count of every name of the table that is
not reported. -/
theorem displayHeaderFrequency_reports_rarest (lib : Lib) (cfg : Config) (s : State)
    (hsort : ∀ l, (lib.sortSlice less l).Perm l ∧
      (lib.sortSlice less l).Pairwise (fun a b => less b a = false))
    (hwf : CountWF s.headerCount) (hK : 0 ≤ cfg.topRareHeaders) :
    ∃ reported : List headerFrequency,
      (displayHeaderFrequency lib cfg s).stdout =
        s.stdout ++ Event.freqHeading ::
          reported.map (fun e => Event.freqLine e.HeaderName e.Frequency) ∧
      (reported.length : Int) = min cfg.topRareHeaders s.headerCount.length ∧
      (reported.map (fun e => e.HeaderName)).Nodup ∧
      reported.Nodup ∧
      (∀ e ∈ reported, (e.HeaderName, e.Frequency) ∈ s.headerCount) ∧
      reported.Pairwise (fun a b => a.Frequency ≤ b.Frequency) ∧
      (∀ e ∈ reported, ∀ kv ∈ s.headerCount,
        kv.1 ∉ reported.map (fun e => e.HeaderName) → e.Frequency ≤ kv.2) := by
  obtain ⟨hperm, hsorted⟩ := hsort (headerFrequencies s.headerCount)
  have hnames : ((lib.sortSlice less (headerFrequencies s.headerCount)).map
      (fun e => e.HeaderName)).Nodup := by
    rw [(hperm.map _).nodup_iff, names_headerFrequencies]
    exact hwf
  have hsub := List.take_sublist cfg.topRareHeaders.toNat
    (lib.sortSlice less (headerFrequencies s.headerCount))
  refine ⟨rarest lib cfg.topRareHeaders s.headerCount, rfl, ?_, ?_, ?_, ?_, ?_, ?_⟩
  · rw [rarest_eq_take, List.length_take, hperm.length_eq]
    simp only [headerFrequencies, List.length_map]
    omega
  · rw [rarest_eq_take]
    exact hnames.sublist (hsub.map _)
  · rw [rarest_eq_take]
    exact (List.Nodup.of_map _ hnames).sublist hsub
  · intro e he
    rw [rarest_eq_take] at he
    exact (mem_headerFrequencies _ e).mp (hperm.subset (hsub.subset he))
  · rw [rarest_eq_take]
    refine (hsorted.sublist hsub).imp ?_
    intro a b hab
    exact (less_eq_false_iff a b).mp hab
  · intro e he kv hkv hnot
    rw [rarest_eq_take] at he hnot
    have hmem : (⟨kv.1, kv.2⟩ : headerFrequency) ∈
        lib.sortSlice less (headerFrequencies s.headerCount) :=
      hperm.symm.subset ((mem_headerFrequencies _ _).mpr hkv)
    rw [← List.take_append_drop cfg.topRareHeaders.toNat
      (lib.sortSlice less (headerFrequencies s.headerCount)), List.mem_append] at hmem
    rcases hmem with hmem | hmem
    · exact absurd (List.mem_map_of_mem (fun e => e.HeaderName) hmem) hnot
    · have hpair := hsorted
      rw [← List.take_append_drop cfg.topRareHeaders.toNat
        (lib.sortSlice less (headerFrequencies s.headerCount)), List.pairwise_append] at hpair
      exact (less_eq_false_iff e ⟨kv.1, kv.2⟩).mp (hpair.2.2 e he _ hmem)

/-- With the counts A = 3, B = 1, C = 1 and `K = 2`, the rows reported are
those of B and C. -/
theorem displayHeaderFrequency_reports_rarest_witness :
    rarest refLib 2 [("A", 3), ("B", 1), ("C", 1)] = [⟨"B", 1⟩, ⟨"C", 1⟩] ∧
    ∃ reported : List headerFrequency,
      (displayHeaderFrequency refLib (sampleConfig false false)
          ⟨3, 0, [("A", 3), ("B", 1), ("C", 1)], []⟩).stdout =
        [] ++ Event.freqHeading ::
          reported.map (fun e => Event.freqLine e.HeaderName e.Frequency) ∧
      (reported.length : Int) = min 2 (3 : Nat) ∧
      (reported.map (fun e => e.HeaderName)).Nodup ∧
      reported.Nodup ∧
      (∀ e ∈ reported, (e.HeaderName, e.Frequency) ∈ [("A", (3 : Int)), ("B", 1), ("C", 1)]) ∧
      reported.Pairwise (fun a b => a.Frequency ≤ b.Frequency) ∧
      (∀ e ∈ reported, ∀ kv ∈ [("A", (3 : Int)), ("B", 1), ("C", 1)],
        kv.1 ∉ reported.map (fun e => e.HeaderName) → e.Frequency ≤ kv.2) :=
  ⟨by decide,
    displayHeaderFrequency_reports_rarest refLib (sampleConfig false false)
      ⟨3, 0, [("A", 3), ("B", 1), ("C", 1)], []⟩ refLib_sortSlice (by decide) (by decide)⟩

/-! ## Dispatcher -/

theorem exec_append (lib : Lib) (cfg : Config) (a b : List Action) (s : Sys) :
    exec lib cfg (a ++ b) s = (exec lib cfg a s).bind (exec lib cfg b) := by
  induction a generalizing s with
  | nil => rfl
  | cons x xs ih =>
    simp only [List.cons_append, exec]
    cases step lib cfg x s with
    | none => rfl
    | some s1 => exact ih s1

theorem exec_dispatchOnly (lib : Lib) (cfg : Config) (lines rest : List String)
    (wg : Nat) (running : List String) (shared : State) :
    exec lib cfg (dispatchOnly lines.length) ⟨lines ++ rest, .scan, 0, wg, running, shared⟩ =
      some ⟨rest, .scan, 0, wg + lines.length, running ++ lines, shared⟩ := by
  induction lines generalizing wg running with
  | nil => simp [dispatchOnly, exec]
  | cons raw more ih =>
    have hsplit : dispatchOnly (raw :: more).length =
        [Action.main, .main, .main, .main] ++ dispatchOnly more.length := by
      simp [dispatchOnly, List.replicate_succ]
    rw [hsplit, exec_append]
    have h4 : exec lib cfg [Action.main, .main, .main, .main]
        ⟨raw :: more ++ rest, .scan, 0, wg, running, shared⟩ =
        some ⟨more ++ rest, .scan, 0, wg + 1, running ++ [raw], shared⟩ := by
      simp [exec, step, stepMain, semaphoreCap]
    rw [h4, Option.some_bind, ih]
    simp [Nat.add_assoc, Nat.add_comm 1]

theorem perm_cons_eraseIdx (l : List String) (i : Nat) (raw : String)
    (h : l[i]? = some raw) : l.Perm (raw :: l.eraseIdx i) := by
  induction l generalizing i with
  | nil => simp at h
  | cons a t ih =>
    cases i with
    | zero =>
      simp only [List.getElem?_cons_zero, Option.some.injEq] at h
      subst h
      exact List.Perm.refl _
    | succ j =>
      simp only [List.getElem?_cons_succ] at h
      exact ((ih j h).cons a).trans (List.Perm.swap raw a _)

theorem unparsable_append (lib : Lib) (a b : List String) :
    unparsable lib (a ++ b) = unparsable lib a + unparsable lib b := by
  simp [unparsable]

theorem unparsable_cons (lib : Lib) (raw : String) (l : List String) :
    unparsable lib (raw :: l) =
      (if lib.ParseRequestURI raw = none then 1 else 0) + unparsable lib l := by
  unfold unparsable
  cases h : lib.ParseRequestURI raw with
  | none =>
    rw [List.filter_cons_of_pos (by simp [h]), List.length_cons]
    simp
    omega
  | some u =>
    rw [List.filter_cons_of_neg (by simp [h])]
    simp

theorem unparsable_perm (lib : Lib) (a b : List String) (h : a.Perm b) :
    unparsable lib a = unparsable lib b :=
  (h.filter _).length_eq

theorem worker_counters (lib : Lib) (cfg : Config) (raw : String) (o : Outcome) (s : State) :
    ((lib.ParseRequestURI raw = none ∨ o = .newRequestErr ∨ o = .doErr) →
      (worker lib cfg raw o s).totalErrors = wrapUint64 (s.totalErrors + 1) ∧
      (worker lib cfg raw o s).totalRequests = s.totalRequests) ∧
    (¬ (lib.ParseRequestURI raw = none ∨ o = .newRequestErr ∨ o = .doErr) →
      (worker lib cfg raw o s).totalRequests = wrapUint64 (s.totalRequests + 1) ∧
      (worker lib cfg raw o s).totalErrors = s.totalErrors) := by
  unfold worker
  cases hp : lib.ParseRequestURI raw with
  | none => simp
  | some u =>
    cases o with
    | newRequestErr => simp [fetchURL]
    | doErr => simp [fetchURL]
    | response resp =>
      have h := fetchURL_counters lib cfg u resp s
      simp [h.1, h.2]

theorem finishMain_counters (lib : Lib) (cfg : Config) (s : State) :
    (finishMain lib cfg s).totalRequests = s.totalRequests ∧
    (finishMain lib cfg s).totalErrors = s.totalErrors := by
  unfold finishMain
  by_cases h : cfg.headerFrequency = true <;>
    simp [h, printCounters, displayHeaderFrequency]

theorem inv_init (lib : Lib) (lines : List String) : Inv lib lines (Sys.init lines) := by
  simp [Inv, Sys.init, Sys.pending, Loc.held, Loc.slots, State.init]

theorem inv_stepMain (lib : Lib) (cfg : Config) (lines : List String) (s s1 : Sys)
    (hinv : Inv lib lines s) (h : stepMain lib cfg s = some s1) : Inv lib lines s1 := by
  obtain ⟨input, loc, sem, wg, running, shared⟩ := s
  obtain ⟨h1, h2, h3, h4, h5, h6⟩ := hinv
  simp only [Sys.pending, unparsable_append, List.length_append] at h1 h2
  simp only at h3 h4 h5 h6
  cases loc with
  | scan =>
    cases input with
    | nil =>
      simp only [stepMain, Option.some.injEq] at h
      subst h
      simp only [Loc.held, Loc.slots, List.length_nil] at h1 h2 h3 h4
      simp only [Inv, Sys.pending, unparsable_append, List.length_append, Loc.held, Loc.slots,
        List.length_nil]
      exact ⟨h1, h2, h3, h4, by simp, fun h => by simp at h⟩
    | cons raw rest =>
      simp only [stepMain, Option.some.injEq] at h
      subst h
      simp only [Loc.held, Loc.slots, List.length_nil, List.length_cons, unparsable_cons] at h1 h2 h3 h4
      simp only [Inv, Sys.pending, unparsable_append, List.length_append, Loc.held, Loc.slots,
        List.length_nil, List.length_cons, unparsable_cons]
      refine ⟨by omega, ?_, by omega, h4, fun h => by simp at h, fun h => by simp at h⟩
      have h0 : unparsable lib [] = 0 := rfl
      rw [h0] at h2 ⊢
      omega
  | send raw =>
    simp only [stepMain] at h
    split at h
    · simp only [Option.some.injEq] at h
      subst h
      simp only [Loc.held, Loc.slots] at h1 h2 h3 h4
      simp only [Inv, Sys.pending, unparsable_append, List.length_append, Loc.held, Loc.slots]
      exact ⟨h1, h2, h3, by omega, fun h => by simp at h, fun h => by simp at h⟩
    · simp at h
  | spawn raw =>
    simp only [stepMain, Option.some.injEq] at h
    subst h
    simp only [Loc.held, Loc.slots, List.length_nil, List.length_cons, unparsable_cons] at h1 h2 h3 h4
    simp only [Inv, Sys.pending, unparsable_append, List.length_append, Loc.held, Loc.slots,
      List.length_nil, List.length_cons, unparsable_cons]
    refine ⟨by omega, ?_, by omega, h4, fun h => by simp at h, fun h => by simp at h⟩
    have h0 : unparsable lib [] = 0 := rfl
    rw [h0] at h2 ⊢
    omega
  | recv =>
    simp only [stepMain] at h
    split at h
    · simp only [Option.some.injEq] at h
      subst h
      simp only [Loc.held, Loc.slots] at h1 h2 h3 h4
      simp only [Inv, Sys.pending, unparsable_append, List.length_append, Loc.held, Loc.slots]
      exact ⟨h1, h2, h3, by omega, fun h => by simp at h, fun h => by simp at h⟩
    · simp at h
  | wait =>
    simp only [stepMain] at h
    split at h
    · rename_i hw
      simp only [Option.some.injEq] at h
      subst h
      have hc := finishMain_counters lib cfg shared
      simp only [Loc.held, Loc.slots, List.length_nil, Nat.add_zero] at h1 h2 h3 h4
      have hr : running = [] := List.length_eq_zero.mp (by omega)
      simp only [Inv, Sys.pending, unparsable_append, List.length_append, Loc.held, Loc.slots,
        List.length_nil, hc.1, hc.2]
      exact ⟨h1, h2, h3, h4, fun _ => h5 (Or.inl rfl), fun _ => hr⟩
    · simp at h
  | exit => simp [stepMain] at h

theorem inv_stepFinish (lib : Lib) (cfg : Config) (lines : List String)
    (hn : lines.length < 2 ^ 64) (i : Nat) (o : Outcome) (s s1 : Sys)
    (hinv : Inv lib lines s) (h : stepFinish lib cfg i o s = some s1) : Inv lib lines s1 := by
  obtain ⟨input, loc, sem, wg, running, shared⟩ := s
  obtain ⟨h1, h2, h3, h4, h5, h6⟩ := hinv
  simp only [Sys.pending, unparsable_append, List.length_append] at h1 h2
  simp only at h3 h4 h5 h6
  simp only [stepFinish] at h
  cases hg : running[i]? with
  | none => simp [hg] at h
  | some raw =>
    rw [hg] at h
    simp only at h
    split at h
    · simp at h
    · simp only [Option.some.injEq] at h
      subst h
      have hperm := perm_cons_eraseIdx running i raw hg
      have hlen : running.length = (running.eraseIdx i).length + 1 := by
        rw [hperm.length_eq, List.length_cons]
      have hunp := unparsable_perm lib _ _ hperm
      rw [unparsable_cons] at hunp
      have hw := worker_counters lib cfg raw o shared
      simp only [Inv, Sys.pending, unparsable_append, List.length_append]
      by_cases herr : lib.ParseRequestURI raw = none ∨ o = .newRequestErr ∨ o = .doErr
      · obtain ⟨he, hr⟩ := hw.1 herr
        rw [he, hr, wrapUint64_of_lt _ (by omega)]
        refine ⟨by omega, ?_, by omega, h4, h5, ?_⟩
        · split at hunp <;> omega
        · intro hx
          have := h6 hx
          simp [this] at hg
      · obtain ⟨hr, he⟩ := hw.2 herr
        rw [he, hr, wrapUint64_of_lt _ (by omega)]
        have hp : ¬ lib.ParseRequestURI raw = none := fun hp => herr (Or.inl hp)
        rw [if_neg hp] at hunp
        refine ⟨by omega, by omega, by omega, h4, h5, ?_⟩
        intro hx
        have := h6 hx
        simp [this] at hg

theorem inv_exec (lib : Lib) (cfg : Config) (lines : List String)
    (hn : lines.length < 2 ^ 64) (sched : List Action) (s s1 : Sys)
    (hinv : Inv lib lines s) (h : exec lib cfg sched s = some s1) : Inv lib lines s1 := by
  induction sched generalizing s with
  | nil =>
    simp only [exec, Option.some.injEq] at h
    subst h
    exact hinv
  | cons a rest ih =>
    simp only [exec] at h
    cases hs : step lib cfg a s with
    | none => simp [hs] at h
    | some s2 =>
      rw [hs] at h
      refine ih s2 ?_ h
      cases a with
      | main => exact inv_stepMain lib cfg lines s s2 hinv hs
      | finish i o => exact inv_stepFinish lib cfg lines hn i o s s2 hinv hs

theorem exec_sequential (lib : Lib) (cfg : Config) (lines : List String) (os : List Outcome)
    (hlen : os.length = lines.length) (shared : State) :
    ∃ shared1, exec lib cfg (os.flatMap fun o => [.main, .main, .main, .main, .finish 0 o])
      ⟨lines, .scan, 0, 0, [], shared⟩ = some ⟨[], .scan, 0, 0, [], shared1⟩ := by
  induction lines generalizing os shared with
  | nil =>
    have : os = [] := List.length_eq_zero.mp hlen
    subst this
    exact ⟨shared, rfl⟩
  | cons raw rest ih =>
    cases os with
    | nil => simp at hlen
    | cons o os1 =>
      simp only [List.length_cons, Nat.add_right_cancel_iff] at hlen
      obtain ⟨shared1, h1⟩ := ih os1 hlen (worker lib cfg raw o shared)
      refine ⟨shared1, ?_⟩
      rw [List.flatMap_cons, exec_append]
      have h5 : exec lib cfg [.main, .main, .main, .main, .finish 0 o]
          ⟨raw :: rest, .scan, 0, 0, [], shared⟩ =
          some ⟨rest, .scan, 0, 0, [], worker lib cfg raw o shared⟩ := by
        simp [exec, step, stepMain, stepFinish, semaphoreCap]
      rw [h5, Option.some_bind, h1]

theorem exec_sequentialSchedule (lib : Lib) (cfg : Config) (lines : List String)
    (os : List Outcome) (hlen : os.length = lines.length) :
    ∃ s, exec lib cfg (sequentialSchedule os) (Sys.init lines) = some s ∧ s.loc = .exit := by
  obtain ⟨shared1, h1⟩ := exec_sequential lib cfg lines os hlen State.init
  unfold sequentialSchedule Sys.init
  rw [exec_append, h1, Option.some_bind]
  exact ⟨⟨[], .exit, 0, 0, [], finishMain lib cfg shared1⟩, by simp [exec, step, stepMain], rfl⟩

/-- C1: on an input of `n` lines (`n < 2^64`, the range of the `uint64`
counters) the goroutine of a line adds one to exactly one counter: to
`totalErrors` when the line does not parse, the request cannot be built or
the transport fails, to `totalRequests` when a response is received. For
every choice of the outcomes there is a run of the program that ends, in every
reachable state the two counters and the lines still pending add up to `n`,
and in every final state `totalRequests + totalErrors = n` and `totalErrors`
is at least the number of lines that do not parse. -/
theorem counters_account_for_every_line (lib : Lib) (cfg : Config) (lines : List String)
    (hn : lines.length < 2 ^ 64) :
    (∀ (raw : String) (o : Outcome) (s : State),
      s.totalRequests + 1 < 2 ^ 64 → s.totalErrors + 1 < 2 ^ 64 →
        ((lib.ParseRequestURI raw = none ∨ o = .newRequestErr ∨ o = .doErr) →
          (worker lib cfg raw o s).totalErrors = s.totalErrors + 1 ∧
          (worker lib cfg raw o s).totalRequests = s.totalRequests) ∧
        ((∃ u resp, lib.ParseRequestURI raw = some u ∧ o = .response resp) →
          (worker lib cfg raw o s).totalRequests = s.totalRequests + 1 ∧
          (worker lib cfg raw o s).totalErrors = s.totalErrors)) ∧
    (∀ os : List Outcome, os.length = lines.length →
      ∃ s, exec lib cfg (sequentialSchedule os) (Sys.init lines) = some s ∧ s.loc = .exit) ∧
    (∀ s, Reachable lib cfg lines s →
      s.shared.totalRequests + s.shared.totalErrors + s.pending.length = lines.length) ∧
    (∀ s, Reachable lib cfg lines s → s.loc = .exit →
      s.shared.totalRequests + s.shared.totalErrors = lines.length ∧
      unparsable lib lines ≤ s.shared.totalErrors) := by
  refine ⟨?_, exec_sequentialSchedule lib cfg lines, ?_, ?_⟩
  · intro raw o s hr he
    have hw := worker_counters lib cfg raw o s
    constructor
    · intro herr
      obtain ⟨h1, h2⟩ := hw.1 herr
      rw [h1, h2, wrapUint64_of_lt _ he]
      exact ⟨rfl, rfl⟩
    · rintro ⟨u, resp, hp, ho⟩
      have hnot : ¬ (lib.ParseRequestURI raw = none ∨ o = .newRequestErr ∨ o = .doErr) := by
        simp [hp, ho]
      obtain ⟨h1, h2⟩ := hw.2 hnot
      rw [h1, h2, wrapUint64_of_lt _ hr]
      exact ⟨rfl, rfl⟩
  · rintro s ⟨sched, hs⟩
    exact (inv_exec lib cfg lines hn sched _ s (inv_init lib lines) hs).1
  · rintro s ⟨sched, hs⟩ hexit
    obtain ⟨h1, h2, _, _, h5, h6⟩ := inv_exec lib cfg lines hn sched _ s (inv_init lib lines) hs
    have hin := h5 (Or.inr hexit)
    have hrun := h6 hexit
    simp only [Sys.pending, hin, hrun, hexit, Loc.held, List.append_nil, List.length_nil,
      Nat.add_zero] at h1 h2
    exact ⟨h1, by simpa [unparsable] using h2⟩

/-- Three lines, one of which does not parse, one response received and one
transport failure: one completed request and two errors. -/
theorem counters_account_for_every_line_witness :
    threeLines.length < 2 ^ 64 ∧
    unparsable refLib threeLines = 1 ∧
    (∃ s, exec refLib (sampleConfig false true)
        (sequentialSchedule [.response nginxResponse, .doErr, .doErr])
        (Sys.init threeLines) = some s ∧ s.loc = .exit) ∧
    (exec refLib (sampleConfig false true)
        (sequentialSchedule [.response nginxResponse, .doErr, .doErr])
        (Sys.init threeLines)).map
      (fun s => (s.shared.totalRequests, s.shared.totalErrors)) = some (1, 2) :=
  ⟨by decide, by decide,
    (counters_account_for_every_line refLib (sampleConfig false true) threeLines
      (by decide)).2.1 [.response nginxResponse, .doErr, .doErr] rfl,
    by decide⟩

/-- C8 (what the code does): `main` receives from `semaphore` right after the
`go` statement, so the channel never holds more than one value and does not
limit the goroutines: for every input there is a reachable state in which a
goroutine has been started for every line and none has returned. With 21
lines, 21 fetch tasks are in flight, more than the capacity 20. -/
theorem in_flight_not_bounded_by_semaphore (lib : Lib) (cfg : Config) :
    (∀ lines, ∃ s, Reachable lib cfg lines s ∧ s.running = lines ∧ s.semaphore = 0) ∧
    (∃ s, Reachable lib cfg (List.replicate 21 "http://a.test/") s ∧
      s.running.length = 21 ∧ semaphoreCap < s.running.length) ∧
    (∀ lines s, lines.length < 2 ^ 64 → Reachable lib cfg lines s → s.semaphore ≤ 1) := by
  have hall : ∀ lines, ∃ s, Reachable lib cfg lines s ∧ s.running = lines ∧ s.semaphore = 0 := by
    intro lines
    refine ⟨⟨[], .scan, 0, 0 + lines.length, [] ++ lines, State.init⟩,
      ⟨dispatchOnly lines.length, ?_⟩, by simp, rfl⟩
    have h := exec_dispatchOnly lib cfg lines [] 0 [] State.init
    rw [List.append_nil] at h
    exact h
  refine ⟨hall, ?_, ?_⟩
  · obtain ⟨s, hs, hrun, _⟩ := hall (List.replicate 21 "http://a.test/")
    refine ⟨s, hs, ?_, ?_⟩
    · rw [hrun, List.length_replicate]
    · rw [hrun, List.length_replicate]
      decide
  · rintro lines s hn ⟨sched, hs⟩
    obtain ⟨_, _, _, h4, _, _⟩ := inv_exec lib cfg lines hn sched _ s (inv_init lib lines) hs
    rw [h4]
    cases s.loc <;> simp [Loc.slots]

end HRecon
